import Mathlib

/-!
# Verification of the spectrum-analyzer core

Shallow embedding of the Rust sources `src/spectrum.rs`, `src/lib.rs` and
`src/fft/microfft_real.rs` of the `spectrum-analyzer` crate.

Floating-point `f32` values are modelled by exact rationals `ℚ`; the
ULP-tolerance comparison `float_cmp::approx_eq!(f32, a, b, ulps = 3)` is
modelled by exact equality on `ℚ` (for exactly representable inputs the two
coincide). Rust panics are modelled by `Option.none`. The interior-mutability
cells (`RefCell`/`Cell`) of `FrequencySpectrum` are modelled by explicit state
passing: every mutating operation returns the new spectrum value.
-/

namespace SpectrumAnalyzer

/-- A frequency bin: `(Frequency, FrequencyValue)` from `src/frequency.rs`,
i.e. a pair of a frequency in Hertz and the magnitude at that frequency. -/
abbrev Bin := ℚ × ℚ

/-- The by-magnitude comparison used by `calc_statistics`'s
`data_sorted.sort_by(|(_l_fr, l_fr_val), (_r_fr, r_fr_val)| l_fr_val.cmp(r_fr_val))`. -/
def valLE (a b : Bin) : Prop := a.2 ≤ b.2

instance : DecidableRel valLE := fun a b => inferInstanceAs (Decidable (a.2 ≤ b.2))

instance : IsTotal Bin valLE := ⟨fun a b => le_total a.2 b.2⟩

instance : IsTrans Bin valLE := ⟨fun _ _ _ hab hbc => le_trans hab hbc⟩

/-- The sorted working copy built at the start of `calc_statistics`
(`src/spectrum.rs:428-432`): the bin sequence sorted ascending by magnitude.
Rust's `sort_by` is a stable sort; insertion sort is stable, so the two agree
extensionally on every input. -/
def sortByVal (data : List Bin) : List Bin := data.insertionSort valLE

/-- The four cached statistics of a `FrequencySpectrum`. -/
structure Stats where
  min : Bin
  max : Bin
  average : ℚ
  median : ℚ
deriving DecidableEq

/-- Model of `FrequencySpectrum::calc_statistics` (`src/spectrum.rs:427-464`):
sort a copy of the data by magnitude; `min`/`max` are the first/last entries of
the sorted copy; `average` is the fold-sum of the magnitudes divided by the
length; `median` is the mean of the sorted magnitudes at indices
`len/2 - 1` and `len/2`. The out-of-range list accesses (empty data) cannot
occur for constructed spectra (`new` enforces length ≥ 2); `getD` totalizes
them with a junk default. -/
def calcStatistics (data : List Bin) : Stats :=
  let dataSorted := sortByVal data
  let sum : ℚ := (dataSorted.map Prod.snd).foldl (fun a b => a + b) 0
  let avg : ℚ := sum / (dataSorted.length : ℚ)
  let median : ℚ :=
    let a := (dataSorted.getD (dataSorted.length / 2 - 1) (0, 0)).2
    let b := (dataSorted.getD (dataSorted.length / 2) (0, 0)).2
    (a + b) / 2
  let mn := dataSorted.getD 0 (0, 0)
  let mx := dataSorted.getD (dataSorted.length - 1) (0, 0)
  { min := mn, max := mx, average := avg, median := median }

/-- The `FrequencySpectrum<N>` struct (`src/spectrum.rs:63-86`): the ordered
bin data, the frequency resolution, and the four cached statistics (held in
`Cell`s in the source, modelled as plain fields with explicit state passing). -/
structure FrequencySpectrum where
  data : List Bin
  frequency_resolution : ℚ
  average : ℚ
  median : ℚ
  min : Bin
  max : Bin
deriving DecidableEq

/-- The successful branch of `FrequencySpectrum::new`: store data and
resolution, then overwrite the placeholder statistics via `calc_statistics`. -/
def mkSpectrum (data : List Bin) (frequencyResolution : ℚ) : FrequencySpectrum :=
  let st := calcStatistics data
  { data := data
    frequency_resolution := frequencyResolution
    average := st.average
    median := st.median
    min := st.min
    max := st.max }

/-- Model of `FrequencySpectrum::new` (`src/spectrum.rs:97-123`): asserts
`data.len() >= 2` (panic modelled as `none`), then computes the statistics
before the constructor returns. -/
def newSpectrum (data : List Bin) (frequencyResolution : ℚ) :
    Option FrequencySpectrum :=
  if data.length < 2 then none
  else some (mkSpectrum data frequencyResolution)

/-- Model of `FrequencySpectrum::apply_complex_scaling_fn` (`src/spectrum.rs:131-149`):
obtain the per-element function from the factory applied to the current
`min.1.val()`, `max.1.val()`, `average`, `median`; replace every magnitude by
its image; recompute the statistics. -/
def applyComplexScalingFn (s : FrequencySpectrum)
    (totalScalingFn : ℚ → ℚ → ℚ → ℚ → (ℚ → ℚ)) : FrequencySpectrum :=
  let scaleFn := totalScalingFn s.min.2 s.max.2 s.average s.median
  let newData := s.data.map (fun p => (p.1, scaleFn p.2))
  let st := calcStatistics newData
  { data := newData
    frequency_resolution := s.frequency_resolution
    average := st.average
    median := st.median
    min := st.min
    max := st.max }

/-- Model of `FrequencySpectrum::dc_component` (`src/spectrum.rs:226-234`): looks at
`data[0]`; returns `Some` of its value iff its frequency is `0.0`. Reading an
empty spectrum would panic in Rust; it is unreachable for constructed spectra
and modelled as `none`. -/
def dcComponent (s : FrequencySpectrum) : Option ℚ :=
  match s.data with
  | [] => none
  | hd :: _ => if hd.1 = 0 then some hd.2 else none

/-- Model of `calculate_y_coord_between_points` (`src/spectrum.rs:494-508`): the y
coordinate at `x = xCoord` of the line through `p1` and `p2`. -/
def calculateYCoordBetweenPoints (p1 p2 : ℚ × ℚ) (xCoord : ℚ) : ℚ :=
  let slope := (p2.2 - p1.2) / (p2.1 - p1.1)
  let c := p1.2 - slope * p1.1
  slope * xCoord + c

/-- The `windows(2)` scan of `freq_val_exact` (`src/spectrum.rs:283-309`):
skip windows whose right endpoint lies strictly below the query, then either
return the left endpoint's value on a (tolerance) match or interpolate.
Falling off the end (`panic!("Here be dragons")`) is modelled as `none`. -/
def exactScan (f : ℚ) : List Bin → Option ℚ
  | a :: b :: rest =>
    if b.1 < f then exactScan f (b :: rest)
    else if a.1 = f then some a.2
    else some (calculateYCoordBetweenPoints (a.1, a.2) (b.1, b.2) f)
  | _ => none

/-- Model of `FrequencySpectrum::freq_val_exact` (`src/spectrum.rs:255-310`): fast
paths on an exact match with the first (`data[0]`) or last
(`data[data.len() - 1]`) stored frequency, then the bounds check (panic
modelled as `none`), then the window scan. The `data[0]` access on an empty
spectrum would panic in Rust (unreachable for constructed spectra); it is
modelled as `none`. -/
def freqValExact (s : FrequencySpectrum) (searchFr : ℚ) : Option ℚ :=
  match s.data with
  | [] => none
  | first :: rest =>
    let lastBin := (first :: rest).getD rest.length (0, 0)
    if first.1 = searchFr then some first.2
    else if lastBin.1 = searchFr then some lastBin.2
    else if searchFr < first.1 ∨ lastBin.1 < searchFr then none
    else exactScan searchFr (first :: rest)

/-- The `windows(2)` scan of `freq_val_closest` (`src/spectrum.rs:357-384`):
skip windows whose right endpoint lies strictly below the query; on a
(tolerance) match with the left endpoint return it; otherwise return the left
bin iff `(f - A.fr) / frequency_resolution < 0.5`, else the right bin. -/
def closestScan (frequencyResolution f : ℚ) : List Bin → Option Bin
  | a :: b :: rest =>
    if b.1 < f then closestScan frequencyResolution f (b :: rest)
    else if a.1 = f then some a
    else if (f - a.1) / frequencyResolution < 1 / 2 then some a
    else some b
  | _ => none

/-- Model of `FrequencySpectrum::freq_val_closest` (`src/spectrum.rs:331-387`): fast
paths, bounds check, then the nearest-neighbor window scan. -/
def freqValClosest (s : FrequencySpectrum) (searchFr : ℚ) : Option Bin :=
  match s.data with
  | [] => none
  | first :: rest =>
    let lastBin := (first :: rest).getD rest.length (0, 0)
    if first.1 = searchFr then some first
    else if lastBin.1 = searchFr then some lastBin
    else if searchFr < first.1 ∨ lastBin.1 < searchFr then none
    else closestScan s.frequency_resolution searchFr (first :: rest)

/-- Which branch of `freq_val_exact` produced the returned value. -/
inductive ExactPath where
  | fastMin
  | fastMax
  | tolMatch
  | interp
deriving DecidableEq

/-- Variant of `exactScan` instrumented with the branch that produced the result;
identical control flow to `exactScan`. -/
def exactScanTrace (f : ℚ) : List Bin → Option (ℚ × ExactPath)
  | a :: b :: rest =>
    if b.1 < f then exactScanTrace f (b :: rest)
    else if a.1 = f then some (a.2, ExactPath.tolMatch)
    else some (calculateYCoordBetweenPoints (a.1, a.2) (b.1, b.2) f, ExactPath.interp)
  | _ => none

/-- Variant of `freqValExact` instrumented with the branch that produced the result;
identical control flow to `freqValExact`. -/
def freqValExactTrace (s : FrequencySpectrum) (searchFr : ℚ) :
    Option (ℚ × ExactPath) :=
  match s.data with
  | [] => none
  | first :: rest =>
    let lastBin := (first :: rest).getD rest.length (0, 0)
    if first.1 = searchFr then some (first.2, ExactPath.fastMin)
    else if lastBin.1 = searchFr then some (lastBin.2, ExactPath.fastMax)
    else if searchFr < first.1 ∨ lastBin.1 < searchFr then none
    else exactScanTrace searchFr (first :: rest)

/-- The concrete scenario bins of the spec (§8) and of the source's
`test_spectrum_basic`. -/
def scenarioBins : List Bin :=
  [(0, 5), (50, 50), (100, 100), (150, 150), (200, 100), (250, 20), (300, 0), (450, 200)]

/-- The scenario spectrum: `FrequencySpectrum::new(scenarioBins, 50.0)`. -/
def scenarioSpectrum : FrequencySpectrum := mkSpectrum scenarioBins 50

/-- Strict frequency-ascending ordering of a bin list (the documented
invariant of `FrequencySpectrum::data`). -/
def FreqSorted (l : List Bin) : Prop := l.Pairwise (fun a b => a.1 < b.1)

instance : DecidablePred FreqSorted := fun l =>
  inferInstanceAs (Decidable (l.Pairwise _))

/-- Model of `FrequencySpectrum::min_fr` (`src/spectrum.rs:206-209`): `data[0].0`. -/
def minFr (s : FrequencySpectrum) : ℚ := (s.data.getD 0 (0, 0)).1

/-- Model of `FrequencySpectrum::max_fr` (`src/spectrum.rs:198-201`):
`data[data.len() - 1].0`. -/
def maxFr (s : FrequencySpectrum) : ℚ := (s.data.getD (s.data.length - 1) (0, 0)).1

section SortLemmas

lemma sortByVal_perm (data : List Bin) : List.Perm (sortByVal data) data :=
  List.perm_insertionSort _ _

lemma sortByVal_sorted (data : List Bin) : (sortByVal data).Sorted valLE :=
  List.sorted_insertionSort _ _

lemma sortByVal_length (data : List Bin) : (sortByVal data).length = data.length :=
  (sortByVal_perm data).length_eq

lemma getD_mem_of_lt {l : List Bin} {n : ℕ} (h : n < l.length) (d : Bin) :
    l.getD n d ∈ l := by
  rw [List.getD_eq_getElem?_getD, List.getElem?_eq_getElem h]
  exact List.getElem_mem h

/-- In a list sorted ascending by magnitude, the first entry has the least
magnitude. -/
lemma sorted_getD_zero_le {l : List Bin} (hs : l.Sorted valLE) {b : Bin}
    (hb : b ∈ l) (d : Bin) : (l.getD 0 d).2 ≤ b.2 := by
  cases l with
  | nil => cases hb
  | cons x t =>
    rcases List.mem_cons.mp hb with rfl | hbt
    · simp [List.getD]
    · simpa [List.getD] using List.rel_of_sorted_cons hs b hbt

/-- In a list sorted ascending by magnitude, the last entry has the greatest
magnitude. -/
lemma sorted_le_getD_last {l : List Bin} (hs : l.Sorted valLE) {b : Bin}
    (hb : b ∈ l) (d : Bin) : b.2 ≤ (l.getD (l.length - 1) d).2 := by
  induction l with
  | nil => cases hb
  | cons x t ih =>
    cases t with
    | nil =>
      rcases List.mem_cons.mp hb with rfl | h
      · simp [List.getD]
      · cases h
    | cons y t2 =>
      have hlast : ((x :: y :: t2).getD ((x :: y :: t2).length - 1) d) =
          ((y :: t2).getD ((y :: t2).length - 1) d) := by
        simp [List.getD]
      rw [hlast]
      rcases List.mem_cons.mp hb with rfl | hbt
      · have hmem : (y :: t2).getD ((y :: t2).length - 1) d ∈ y :: t2 :=
          getD_mem_of_lt (by simp) d
        exact List.rel_of_sorted_cons hs _ hmem
      · exact ih hs.of_cons hbt

/-- In a frequency-sorted list, the first entry has the least frequency. -/
lemma freqSorted_getD_zero_le {l : List Bin} (hs : FreqSorted l) {b : Bin}
    (hb : b ∈ l) (d : Bin) : (l.getD 0 d).1 ≤ b.1 := by
  cases l with
  | nil => cases hb
  | cons x t =>
    rcases List.mem_cons.mp hb with rfl | hbt
    · simp [List.getD]
    · simpa [List.getD] using le_of_lt ((List.pairwise_cons.mp hs).1 b hbt)

/-- In a frequency-sorted list, the last entry has the greatest frequency. -/
lemma freqSorted_le_getD_last {l : List Bin} (hs : FreqSorted l) {b : Bin}
    (hb : b ∈ l) (d : Bin) : b.1 ≤ (l.getD (l.length - 1) d).1 := by
  induction l with
  | nil => cases hb
  | cons x t ih =>
    cases t with
    | nil =>
      rcases List.mem_cons.mp hb with rfl | h
      · simp [List.getD]
      · cases h
    | cons y t2 =>
      have hlast : ((x :: y :: t2).getD ((x :: y :: t2).length - 1) d) =
          ((y :: t2).getD ((y :: t2).length - 1) d) := by
        simp [List.getD]
      rw [hlast]
      rcases List.mem_cons.mp hb with rfl | hbt
      · have hmem : (y :: t2).getD ((y :: t2).length - 1) d ∈ y :: t2 :=
          getD_mem_of_lt (by simp) d
        exact le_of_lt ((List.pairwise_cons.mp hs).1 _ hmem)
      · exact ih (List.pairwise_cons.mp hs).2 hbt

/-- In a frequency-sorted list, frequencies determine bins uniquely. -/
lemma freqSorted_inj {l : List Bin} (hs : FreqSorted l) {a b : Bin}
    (ha : a ∈ l) (hb : b ∈ l) (h : a.1 = b.1) : a = b := by
  induction l with
  | nil => cases ha
  | cons x t ih =>
    have hx := (List.pairwise_cons.mp hs).1
    rcases List.mem_cons.mp ha with rfl | hat <;>
      rcases List.mem_cons.mp hb with rfl | hbt
    · rfl
    · exact absurd h (ne_of_lt (hx b hbt))
    · exact absurd h.symm (ne_of_lt (hx a hat))
    · exact ih (List.pairwise_cons.mp hs).2 hat hbt

end SortLemmas

section StatisticsLemmas

lemma calcStatistics_min_eq (data : List Bin) :
    (calcStatistics data).min = (sortByVal data).getD 0 (0, 0) := rfl

lemma calcStatistics_max_eq (data : List Bin) :
    (calcStatistics data).max = (sortByVal data).getD ((sortByVal data).length - 1) (0, 0) := rfl

/-- The cached `min` bin is a bin of the data and its magnitude is least. -/
lemma calcStatistics_min_spec {data : List Bin} (h : data ≠ []) :
    (calcStatistics data).min ∈ data ∧
      ∀ b ∈ data, (calcStatistics data).min.2 ≤ b.2 := by
  have hlen : 0 < (sortByVal data).length := by
    rw [sortByVal_length]
    exact List.length_pos.mpr h
  constructor
  · rw [calcStatistics_min_eq]
    exact (sortByVal_perm data).subset (getD_mem_of_lt hlen _)
  · intro b hb
    rw [calcStatistics_min_eq]
    exact sorted_getD_zero_le (sortByVal_sorted data)
      ((sortByVal_perm data).mem_iff.mpr hb) _

/-- The cached `max` bin is a bin of the data and its magnitude is greatest. -/
lemma calcStatistics_max_spec {data : List Bin} (h : data ≠ []) :
    (calcStatistics data).max ∈ data ∧
      ∀ b ∈ data, b.2 ≤ (calcStatistics data).max.2 := by
  have hlen : 0 < (sortByVal data).length := by
    rw [sortByVal_length]
    exact List.length_pos.mpr h
  constructor
  · rw [calcStatistics_max_eq]
    exact (sortByVal_perm data).subset (getD_mem_of_lt (by omega) _)
  · intro b hb
    rw [calcStatistics_max_eq]
    exact sorted_le_getD_last (sortByVal_sorted data)
      ((sortByVal_perm data).mem_iff.mpr hb) _

/-- The cached average is the arithmetic mean of all magnitudes. -/
lemma calcStatistics_average_spec (data : List Bin) :
    (calcStatistics data).average = (data.map Prod.snd).sum / (data.length : ℚ) := by
  show ((sortByVal data).map Prod.snd).foldl (fun a b => a + b) 0 /
      ((sortByVal data).length : ℚ) = _
  rw [← List.sum_eq_foldl, sortByVal_length,
    ((sortByVal_perm data).map Prod.snd).sum_eq]

/-- The magnitudes of the by-magnitude-sorted copy of the bins coincide with
the sorted list of magnitudes. -/
lemma sortByVal_map_snd (data : List Bin) :
    (sortByVal data).map Prod.snd = (data.map Prod.snd).insertionSort (· ≤ ·) := by
  have hperm : List.Perm ((sortByVal data).map Prod.snd)
      ((data.map Prod.snd).insertionSort (· ≤ ·)) :=
    ((sortByVal_perm data).map Prod.snd).trans
      (List.perm_insertionSort (· ≤ ·) (data.map Prod.snd)).symm
  have hs1 : ((sortByVal data).map Prod.snd).Sorted (· ≤ ·) :=
    List.Pairwise.map Prod.snd (fun a b hab => hab) (sortByVal_sorted data)
  exact List.eq_of_perm_of_sorted hperm hs1
    (List.sorted_insertionSort (· ≤ ·) (data.map Prod.snd))

/-- The cached median is the mean of the two middle entries of the sorted
magnitudes. -/
lemma calcStatistics_median_spec (data : List Bin) :
    (calcStatistics data).median =
      (((data.map Prod.snd).insertionSort (· ≤ ·)).getD (data.length / 2 - 1) 0 +
        ((data.map Prod.snd).insertionSort (· ≤ ·)).getD (data.length / 2) 0) / 2 := by
  show (((sortByVal data).getD ((sortByVal data).length / 2 - 1) (0, 0)).2 +
      ((sortByVal data).getD ((sortByVal data).length / 2) (0, 0)).2) / 2 = _
  have h1 : ∀ i : ℕ, ((sortByVal data).getD i ((0 : ℚ), (0 : ℚ))).2 =
      ((data.map Prod.snd).insertionSort (· ≤ ·)).getD i 0 := by
    intro i
    rw [← sortByVal_map_snd]
    exact (List.getD_map (sortByVal data) (0, 0) Prod.snd).symm
  rw [h1, h1, sortByVal_length]

end StatisticsLemmas

set_option maxRecDepth 8000

/-- Claim C1: for every bin sequence of even length ≥ 2, the statistics
computed by `calc_statistics` (used at construction and after every rescale)
satisfy: `min` is a stored bin holding the smallest magnitude and `max` a
stored bin holding the largest; `average` is the arithmetic mean of all
magnitudes; `median` is the mean of the two magnitudes at indices
`len/2 - 1` and `len/2` of the magnitudes sorted ascending. The live bin
sequence is untouched: `calcStatistics` is a pure function of `data` and the
sort operates on a copy. On the concrete scenario spectrum the statistics are
`min = (300, 0)`, `max = (450, 200)`, `average = 78.125 = 625/8`,
`median = 75`. -/
theorem statistics_correct (data : List Bin) (hlen : 2 ≤ data.length)
    (heven : Even data.length) :
    ((calcStatistics data).min ∈ data ∧
      ∀ b ∈ data, (calcStatistics data).min.2 ≤ b.2) ∧
    ((calcStatistics data).max ∈ data ∧
      ∀ b ∈ data, b.2 ≤ (calcStatistics data).max.2) ∧
    (calcStatistics data).average = (data.map Prod.snd).sum / (data.length : ℚ) ∧
    (calcStatistics data).median =
      (((data.map Prod.snd).insertionSort (· ≤ ·)).getD (data.length / 2 - 1) 0 +
        ((data.map Prod.snd).insertionSort (· ≤ ·)).getD (data.length / 2) 0) / 2 ∧
    calcStatistics scenarioBins =
      { min := (300, 0), max := (450, 200), average := 625 / 8, median := 75 } := by
  have hne : data ≠ [] := by
    intro h
    rw [h] at hlen
    simp at hlen
  refine ⟨calcStatistics_min_spec hne, calcStatistics_max_spec hne,
    calcStatistics_average_spec data, calcStatistics_median_spec data, ?_⟩
  norm_num [calcStatistics, sortByVal, List.insertionSort, List.orderedInsert, valLE,
    scenarioBins]

/-- Witness for C1: the theorem applied to the concrete scenario bins. -/
theorem statistics_correct_witness :
    (calcStatistics scenarioBins).average =
      (scenarioBins.map Prod.snd).sum / (scenarioBins.length : ℚ) :=
  (statistics_correct scenarioBins (by norm_num [scenarioBins])
    (by norm_num [scenarioBins, Nat.even_iff])).2.2.1

/-- Claim C7: `new(bins, frequency_resolution)` fails for bin sequences of
length 0 or 1 (`none` models the panic) and succeeds for every sequence of
length ≥ 2, with all four statistics fields already set from
`calc_statistics` — in particular the cached `min`/`max` magnitudes bound
every stored magnitude — before the constructor returns. -/
theorem new_spectrum_correct (data : List Bin) (res : ℚ) :
    (newSpectrum data res = none ↔ data.length < 2) ∧
    (2 ≤ data.length →
      newSpectrum data res = some (mkSpectrum data res) ∧
      (mkSpectrum data res).data = data ∧
      (mkSpectrum data res).frequency_resolution = res ∧
      (mkSpectrum data res).average = (calcStatistics data).average ∧
      (mkSpectrum data res).median = (calcStatistics data).median ∧
      (mkSpectrum data res).min = (calcStatistics data).min ∧
      (mkSpectrum data res).max = (calcStatistics data).max ∧
      ∀ b ∈ data, (mkSpectrum data res).min.2 ≤ b.2 ∧
        b.2 ≤ (mkSpectrum data res).max.2) := by
  constructor
  · unfold newSpectrum
    split_ifs with h
    · simp [h]
    · simp [h]
  · intro h2
    have hne : data ≠ [] := by
      intro h
      rw [h] at h2
      simp at h2
    have hnew : newSpectrum data res = some (mkSpectrum data res) := by
      unfold newSpectrum
      rw [if_neg (by omega)]
    refine ⟨hnew, rfl, rfl, rfl, rfl, rfl, rfl, ?_⟩
    intro b hb
    exact ⟨(calcStatistics_min_spec hne).2 b hb, (calcStatistics_max_spec hne).2 b hb⟩

/-- Witness for C7: construction succeeds on the scenario bins (length 8). -/
theorem new_spectrum_correct_witness :
    newSpectrum scenarioBins 50 = some (mkSpectrum scenarioBins 50) :=
  ((new_spectrum_correct scenarioBins 50).2 (by norm_num [scenarioBins])).1

/-- Claim C4: `apply_complex_scaling_fn` obtains one per-element function from
the factory applied to the pre-rescale `min`/`max`/`average`/`median`, applies
it to every bin's magnitude, preserves every bin's frequency (hence the
frequency order and the bin count) and the stored `frequency_resolution`, and
the four cached statistics of the result are exactly `calc_statistics` of the
new magnitudes (recomputed before the mutated spectrum is observable — the
embedding returns the fully updated value). -/
theorem apply_scaling_correct (s : FrequencySpectrum)
    (factory : ℚ → ℚ → ℚ → ℚ → (ℚ → ℚ)) :
    (applyComplexScalingFn s factory).data =
      s.data.map (fun p => (p.1, factory s.min.2 s.max.2 s.average s.median p.2)) ∧
    (applyComplexScalingFn s factory).data.map Prod.fst = s.data.map Prod.fst ∧
    (applyComplexScalingFn s factory).data.length = s.data.length ∧
    (applyComplexScalingFn s factory).frequency_resolution = s.frequency_resolution ∧
    (FreqSorted s.data → FreqSorted (applyComplexScalingFn s factory).data) ∧
    (applyComplexScalingFn s factory).average =
      (calcStatistics (applyComplexScalingFn s factory).data).average ∧
    (applyComplexScalingFn s factory).median =
      (calcStatistics (applyComplexScalingFn s factory).data).median ∧
    (applyComplexScalingFn s factory).min =
      (calcStatistics (applyComplexScalingFn s factory).data).min ∧
    (applyComplexScalingFn s factory).max =
      (calcStatistics (applyComplexScalingFn s factory).data).max := by
  have hfst : ∀ (l : List Bin) (g : ℚ → ℚ),
      (l.map (fun p => (p.1, g p.2))).map Prod.fst = l.map Prod.fst := by
    intro l g
    induction l with
    | nil => rfl
    | cons x t ih => simp [ih]
  refine ⟨rfl, hfst s.data _, by simp [applyComplexScalingFn], rfl, ?_, rfl, rfl, rfl, rfl⟩
  intro h
  exact List.Pairwise.map _ (fun a b hab => hab) h

/-- Witness for C4: rescaling the scenario spectrum by subtracting the
minimum preserves the frequency-ascending order. -/
theorem apply_scaling_correct_witness :
    FreqSorted scenarioSpectrum.data ∧
    FreqSorted (applyComplexScalingFn scenarioSpectrum
      (fun mn _ _ _ => fun v => v - mn)).data := by
  have hs : FreqSorted scenarioSpectrum.data := by
    norm_num [FreqSorted, scenarioSpectrum, mkSpectrum, scenarioBins, List.pairwise_cons]
  exact ⟨hs, (apply_scaling_correct scenarioSpectrum
    (fun mn _ _ _ => fun v => v - mn)).2.2.2.2.1 hs⟩

/-- Claim C9: `dc_component` returns `Some` of the first bin's magnitude
exactly when the first bin's frequency is 0 Hz and `None` otherwise; with the
frequency-ascending invariant the first bin is the lowest-frequency bin. The
call is read-only (the embedding's `dcComponent` is a pure function of the
spectrum). Concretely: the scenario spectrum yields `Some 5`; a spectrum
starting at 150 Hz yields `None`. -/
theorem dc_component_correct (s : FrequencySpectrum) (hd : Bin) (tl : List Bin)
    (hdata : s.data = hd :: tl) :
    (dcComponent s = if hd.1 = 0 then some hd.2 else none) ∧
    (FreqSorted s.data → ∀ b ∈ s.data, hd.1 ≤ b.1) ∧
    dcComponent scenarioSpectrum = some 5 ∧
    dcComponent (mkSpectrum [(150, 150), (200, 100)] 50) = none := by
  refine ⟨?_, ?_, ?_, ?_⟩
  · unfold dcComponent
    rw [hdata]
  · intro hsort b hb
    have := freqSorted_getD_zero_le hsort hb ((0 : ℚ), (0 : ℚ))
    rwa [hdata] at this
  · norm_num [dcComponent, scenarioSpectrum, mkSpectrum, scenarioBins]
  · norm_num [dcComponent, mkSpectrum]

/-- Witness for C9: the theorem applied to the scenario spectrum, whose data
is headed by the 0 Hz bin of magnitude 5. -/
theorem dc_component_correct_witness :
    dcComponent scenarioSpectrum =
      (if (((0 : ℚ), (5 : ℚ)) : Bin).1 = 0
        then some (((0 : ℚ), (5 : ℚ)) : Bin).2 else none) :=
  (dc_component_correct scenarioSpectrum (0, 5)
    [(50, 50), (100, 100), (150, 150), (200, 100), (250, 20), (300, 0), (450, 200)]
    rfl).1

section ScanLemmas

/-- The interpolation of `calculate_y_coord_between_points` evaluated exactly
at the right endpoint returns the right endpoint's y value (exact rational
arithmetic). -/
lemma interp_at_right (a b : Bin) (hne : a.1 ≠ b.1) :
    calculateYCoordBetweenPoints (a.1, a.2) (b.1, b.2) b.1 = b.2 := by
  unfold calculateYCoordBetweenPoints
  have h : b.1 - a.1 ≠ 0 := sub_ne_zero.mpr (Ne.symm hne)
  field_simp
  ring

/-- Scanning for a stored frequency strictly above the list head lands in the
window whose right endpoint is the queried bin and returns the stored value
through the interpolation branch. -/
lemma exactScanTrace_mem (fr v : ℚ) :
    ∀ (a : Bin) (t : List Bin), FreqSorted (a :: t) → (fr, v) ∈ a :: t →
      a.1 < fr → exactScanTrace fr (a :: t) = some (v, ExactPath.interp) := by
  intro a t
  induction t generalizing a with
  | nil =>
    intro hs hmem hlt
    rcases List.mem_cons.mp hmem with h | h
    · rw [← h] at hlt
      exact absurd hlt (lt_irrefl fr)
    · cases h
  | cons b t2 ih =>
    intro hs hmem hlt
    have hab : a.1 < b.1 := (List.pairwise_cons.mp hs).1 b (by simp)
    have hs2 : FreqSorted (b :: t2) := (List.pairwise_cons.mp hs).2
    simp only [exactScanTrace]
    by_cases hbf : b.1 < fr
    · rw [if_pos hbf]
      have hmem2 : (fr, v) ∈ b :: t2 := by
        rcases List.mem_cons.mp hmem with h | h
        · rw [← h] at hlt
          exact absurd hlt (lt_irrefl fr)
        · exact h
      exact ih b hs2 hmem2 hbf
    · rw [if_neg hbf]
      have hfb : fr ≤ b.1 := le_of_not_lt hbf
      have heq : fr = b.1 ∧ v = b.2 := by
        rcases List.mem_cons.mp hmem with h | h
        · rw [← h] at hlt
          exact absurd hlt (lt_irrefl fr)
        · rcases List.mem_cons.mp h with h2 | h2
          · exact ⟨congrArg Prod.fst h2, congrArg Prod.snd h2⟩
          · have hbfr : b.1 < fr := (List.pairwise_cons.mp hs2).1 _ h2
            exact absurd hbfr (not_lt.mpr hfb)
      obtain ⟨h1, h2⟩ := heq
      rw [if_neg (show ¬a.1 = fr from fun hh => absurd hlt (by rw [hh]; exact lt_irrefl fr))]
      rw [h1, interp_at_right a b (ne_of_lt hab), h2]

/-- Lemma: `exactScan` is the branch-forgetting projection of `exactScanTrace`. -/
lemma exactScan_eq_trace (fr : ℚ) :
    ∀ l : List Bin, exactScan fr l = (exactScanTrace fr l).map Prod.fst
  | [] => rfl
  | [_] => rfl
  | a :: b :: rest => by
    simp only [exactScan, exactScanTrace]
    by_cases hbf : b.1 < fr
    · rw [if_pos hbf, if_pos hbf]
      exact exactScan_eq_trace fr (b :: rest)
    · rw [if_neg hbf, if_neg hbf]
      by_cases ha : a.1 = fr
      · rw [if_pos ha, if_pos ha]
        rfl
      · rw [if_neg ha, if_neg ha]
        rfl

/-- The `freq_val_closest` scan applied to a query lying strictly between an
adjacent pair of bins resolves exactly by the
`(f - A.fr) / frequency_resolution < 0.5` rule on that pair. -/
lemma closestScan_window (res : ℚ) :
    ∀ (l : List Bin) (i : ℕ) (A B : Bin) (f : ℚ),
      FreqSorted l → l[i]? = some A → l[i + 1]? = some B → A.1 < f → f < B.1 →
      closestScan res f l = some (if (f - A.1) / res < 1 / 2 then A else B) := by
  intro l i
  induction i generalizing l with
  | zero =>
    intro A B f hs hA hB hAf hfB
    cases l with
    | nil => simp at hA
    | cons x t =>
      cases t with
      | nil => simp at hB
      | cons y t2 =>
        obtain rfl : x = A := by simpa using hA
        obtain rfl : y = B := by simpa using hB
        simp only [closestScan]
        rw [if_neg (not_lt.mpr (le_of_lt hfB)), if_neg (ne_of_lt hAf)]
        split_ifs <;> rfl
  | succ i ih =>
    intro A B f hs hA hB hAf hfB
    cases l with
    | nil => simp at hA
    | cons x t =>
      cases t with
      | nil => simp at hA
      | cons y t2 =>
        have hA2 : (y :: t2)[i]? = some A := by simpa using hA
        have hB2 : (y :: t2)[i + 1]? = some B := by simpa using hB
        have hs2 : FreqSorted (y :: t2) := (List.pairwise_cons.mp hs).2
        have hyf : y.1 < f := by
          have hmemA : A ∈ y :: t2 := List.getElem?_mem hA2
          have hyA : y.1 ≤ A.1 := by
            simpa using freqSorted_getD_zero_le hs2 hmemA ((0 : ℚ), (0 : ℚ))
          exact lt_of_le_of_lt hyA hAf
        simp only [closestScan]
        rw [if_pos hyf]
        exact ih (y :: t2) A B f hs2 hA2 hB2 hAf hfB

/-- Convenience: the frequency-sorted invariant holds for the scenario data. -/
lemma scenario_sorted : FreqSorted scenarioSpectrum.data := by
  norm_num [FreqSorted, scenarioSpectrum, mkSpectrum, scenarioBins, List.pairwise_cons]

end ScanLemmas

section QueryUnfolding

lemma freqValExact_cons (s : FrequencySpectrum) (f : ℚ) (first : Bin)
    (rest : List Bin) (hdata : s.data = first :: rest) :
    freqValExact s f =
      (if first.1 = f then some first.2
       else if ((first :: rest).getD rest.length (0, 0)).1 = f then
         some ((first :: rest).getD rest.length (0, 0)).2
       else if f < first.1 ∨ ((first :: rest).getD rest.length (0, 0)).1 < f then none
       else exactScan f (first :: rest)) := by
  unfold freqValExact
  rw [hdata]

lemma freqValClosest_cons (s : FrequencySpectrum) (f : ℚ) (first : Bin)
    (rest : List Bin) (hdata : s.data = first :: rest) :
    freqValClosest s f =
      (if first.1 = f then some first
       else if ((first :: rest).getD rest.length (0, 0)).1 = f then
         some ((first :: rest).getD rest.length (0, 0))
       else if f < first.1 ∨ ((first :: rest).getD rest.length (0, 0)).1 < f then none
       else closestScan s.frequency_resolution f (first :: rest)) := by
  unfold freqValClosest
  rw [hdata]

lemma freqValExactTrace_cons (s : FrequencySpectrum) (f : ℚ) (first : Bin)
    (rest : List Bin) (hdata : s.data = first :: rest) :
    freqValExactTrace s f =
      (if first.1 = f then some (first.2, ExactPath.fastMin)
       else if ((first :: rest).getD rest.length (0, 0)).1 = f then
         some (((first :: rest).getD rest.length (0, 0)).2, ExactPath.fastMax)
       else if f < first.1 ∨ ((first :: rest).getD rest.length (0, 0)).1 < f then none
       else exactScanTrace f (first :: rest)) := by
  unfold freqValExactTrace
  rw [hdata]

end QueryUnfolding

/-- Claim C2: for every constructed spectrum and every query frequency `f`
strictly below the lowest stored frequency or strictly above the highest,
both `freq_val_exact` and `freq_val_closest` fail with the out-of-range panic
(modelled as `none`): no clamping and no extrapolation. -/
theorem out_of_range_queries_fail (data : List Bin) (res f : ℚ)
    (s : FrequencySpectrum) (hnew : newSpectrum data res = some s)
    (hsort : FreqSorted s.data) (hout : f < minFr s ∨ maxFr s < f) :
    freqValExact s f = none ∧ freqValClosest s f = none := by
  unfold newSpectrum at hnew
  have hlen : ¬data.length < 2 := by
    intro hl
    rw [if_pos hl] at hnew
    exact absurd hnew (by simp)
  rw [if_neg hlen] at hnew
  obtain rfl : mkSpectrum data res = s := Option.some_inj.mp hnew
  have h2 : 2 ≤ data.length := not_lt.mp hlen
  obtain ⟨first, rest, rfl⟩ : ∃ a t, data = a :: t := by
    cases data with
    | nil => simp at h2
    | cons a t => exact ⟨a, t, rfl⟩
  have hdata : (mkSpectrum (first :: rest) res).data = first :: rest := rfl
  have hmin : minFr (mkSpectrum (first :: rest) res) = first.1 := rfl
  have hmax : maxFr (mkSpectrum (first :: rest) res) =
      ((first :: rest).getD rest.length (0, 0)).1 := by
    unfold maxFr
    rw [hdata]
    simp
  have hfl : first.1 ≤ ((first :: rest).getD rest.length (0, 0)).1 := by
    have hmemf : first ∈ (mkSpectrum (first :: rest) res).data :=
      List.mem_cons_self _ _
    have := freqSorted_le_getD_last hsort hmemf ((0 : ℚ), (0 : ℚ))
    rw [hdata] at this
    simpa using this
  rcases hout with hlt | hgt
  · rw [hmin] at hlt
    have hne1 : ¬first.1 = f := ne_of_gt hlt
    have hne2 : ¬((first :: rest).getD rest.length (0, 0)).1 = f :=
      ne_of_gt (lt_of_lt_of_le hlt hfl)
    constructor
    · rw [freqValExact_cons _ f first rest hdata, if_neg hne1, if_neg hne2,
        if_pos (Or.inl hlt)]
    · rw [freqValClosest_cons _ f first rest hdata, if_neg hne1, if_neg hne2,
        if_pos (Or.inl hlt)]
  · rw [hmax] at hgt
    have hne2 : ¬((first :: rest).getD rest.length (0, 0)).1 = f := ne_of_lt hgt
    have hne1 : ¬first.1 = f := ne_of_lt (lt_of_le_of_lt hfl hgt)
    constructor
    · rw [freqValExact_cons _ f first rest hdata, if_neg hne1, if_neg hne2,
        if_pos (Or.inr hgt)]
    · rw [freqValClosest_cons _ f first rest hdata, if_neg hne1, if_neg hne2,
        if_pos (Or.inr hgt)]

/-- Witness for C2: querying the scenario spectrum at 500 Hz (above the
highest stored frequency 450 Hz) fails in both query modes. -/
theorem out_of_range_queries_fail_witness :
    freqValExact scenarioSpectrum 500 = none ∧
      freqValClosest scenarioSpectrum 500 = none :=
  out_of_range_queries_fail scenarioBins 50 500 scenarioSpectrum
    (by norm_num [newSpectrum, scenarioBins, scenarioSpectrum])
    scenario_sorted
    (Or.inr (by norm_num [maxFr, scenarioSpectrum, mkSpectrum, scenarioBins]))

/-- Counterexample for C3 as stated: 50 Hz is an interior stored frequency of
the scenario spectrum (neither the lowest, 0 Hz, nor the highest, 450 Hz),
and querying `freq_val_exact` at exactly 50 does return the stored value 50 —
but through the interpolation branch of the window `((0,5), (50,50))`, whose
*right* endpoint is the queried bin, not through the tolerance match against
the left endpoint of an enclosing window. -/
theorem roundtrip_interior_path_cex :
    (((50 : ℚ), (50 : ℚ)) : Bin) ∈ scenarioSpectrum.data ∧
    minFr scenarioSpectrum ≠ 50 ∧ maxFr scenarioSpectrum ≠ 50 ∧
    freqValExactTrace scenarioSpectrum 50 = some (50, ExactPath.interp) ∧
    freqValExactTrace scenarioSpectrum 50 ≠ some (50, ExactPath.tolMatch) := by
  have h4 : freqValExactTrace scenarioSpectrum 50 = some (50, ExactPath.interp) := by
    norm_num [scenarioSpectrum, mkSpectrum, scenarioBins, freqValExactTrace,
      exactScanTrace, calculateYCoordBetweenPoints]
  refine ⟨?_, ?_, ?_, h4, ?_⟩
  · norm_num [scenarioSpectrum, mkSpectrum, scenarioBins]
  · norm_num [scenarioSpectrum, mkSpectrum, scenarioBins, minFr]
  · norm_num [scenarioSpectrum, mkSpectrum, scenarioBins, maxFr]
  · rw [h4]
    simp

/-- Claim C3 (amended): for every frequency-sorted spectrum and every stored
bin `(fr, v)`, `freq_val_exact` at exactly `fr` returns exactly `v`. The
lowest and highest stored frequencies are served by the exact-match fast
paths; every interior stored frequency is served by the linear-interpolation
branch of the first enclosing window — the one whose right endpoint is the
queried bin — which reproduces the stored value exactly in exact arithmetic
(the tolerance-match branch against a left endpoint is never the source of
the returned value for an exact stored query). -/
theorem freq_val_exact_roundtrip (s : FrequencySpectrum)
    (hsort : FreqSorted s.data) (fr v : ℚ) (hmem : ((fr, v) : Bin) ∈ s.data) :
    freqValExact s fr = some v ∧
    (fr ≠ minFr s → fr ≠ maxFr s →
      freqValExactTrace s fr = some (v, ExactPath.interp)) := by
  obtain ⟨first, rest, hdata⟩ : ∃ a t, s.data = a :: t := by
    cases hd : s.data with
    | nil =>
      rw [hd] at hmem
      cases hmem
    | cons a t => exact ⟨a, t, rfl⟩
  rw [hdata] at hsort hmem
  have hmin : minFr s = first.1 := by
    unfold minFr
    rw [hdata]
    rfl
  have hmax : maxFr s = ((first :: rest).getD rest.length (0, 0)).1 := by
    unfold maxFr
    rw [hdata]
    simp
  have hlastmem : (first :: rest).getD rest.length (0, 0) ∈ first :: rest :=
    getD_mem_of_lt (by simp) _
  have hfirst_le : first.1 ≤ fr := by
    simpa using freqSorted_getD_zero_le hsort hmem ((0 : ℚ), (0 : ℚ))
  have hle_last : fr ≤ ((first :: rest).getD rest.length (0, 0)).1 := by
    have := freqSorted_le_getD_last hsort hmem ((0 : ℚ), (0 : ℚ))
    simpa using this
  by_cases h1 : first.1 = fr
  · -- fast path on the minimum frequency
    have hv : ((fr, v) : Bin) = first :=
      freqSorted_inj hsort hmem (List.mem_cons_self _ _) h1.symm
    constructor
    · rw [freqValExact_cons s fr first rest hdata, if_pos h1, ← hv]
    · intro habs _
      rw [hmin] at habs
      exact absurd h1.symm habs
  · by_cases h2 : ((first :: rest).getD rest.length (0, 0)).1 = fr
    · -- fast path on the maximum frequency
      have hv : ((fr, v) : Bin) = (first :: rest).getD rest.length (0, 0) :=
        freqSorted_inj hsort hmem hlastmem h2.symm
      constructor
      · rw [freqValExact_cons s fr first rest hdata, if_neg h1, if_pos h2, ← hv]
      · intro _ habs
        rw [hmax] at habs
        exact absurd h2.symm habs
    · -- interior stored frequency
      have hlt1 : first.1 < fr := lt_of_le_of_ne hfirst_le (fun h => h1 h)
      have hlt2 : fr < ((first :: rest).getD rest.length (0, 0)).1 :=
        lt_of_le_of_ne hle_last (fun h => h2 h.symm)
      have hnb : ¬(fr < first.1 ∨ ((first :: rest).getD rest.length (0, 0)).1 < fr) := by
        push_neg
        exact ⟨le_of_lt hlt1, le_of_lt hlt2⟩
      have htrace : exactScanTrace fr (first :: rest) = some (v, ExactPath.interp) :=
        exactScanTrace_mem fr v first rest hsort hmem hlt1
      constructor
      · rw [freqValExact_cons s fr first rest hdata, if_neg h1, if_neg h2, if_neg hnb,
          exactScan_eq_trace, htrace]
        rfl
      · intro _ _
        rw [freqValExactTrace_cons s fr first rest hdata, if_neg h1, if_neg h2,
          if_neg hnb, htrace]

/-- Witness for C3 (amended): round-trip at the interior stored bin
`(150, 150)` of the scenario spectrum. -/
theorem freq_val_exact_roundtrip_witness :
    freqValExact scenarioSpectrum 150 = some 150 :=
  (freq_val_exact_roundtrip scenarioSpectrum scenario_sorted 150 150
    (by norm_num [scenarioSpectrum, mkSpectrum, scenarioBins])).1

/-- Claim C5: for every in-range query `f` lying strictly between an adjacent
pair of stored bins `(A, B)` of a frequency-sorted spectrum,
`freq_val_closest` returns `A` when `(f - A.frequency) / frequency_resolution`
is strictly less than one half and `B` otherwise, so the upper bin wins
exactly at the midpoint. Concretely, on the scenario spectrum
`freq_val_closest(320) = (300, 0)` and `freq_val_closest(400) = (450, 200)`. -/
theorem freq_val_closest_correct :
    (∀ (s : FrequencySpectrum) (i : ℕ) (A B : Bin) (f : ℚ),
      FreqSorted s.data → s.data[i]? = some A → s.data[i + 1]? = some B →
      A.1 < f → f < B.1 →
      freqValClosest s f =
        some (if (f - A.1) / s.frequency_resolution < 1 / 2 then A else B)) ∧
    freqValClosest scenarioSpectrum 320 = some (300, 0) ∧
    freqValClosest scenarioSpectrum 400 = some (450, 200) := by
  refine ⟨?_, ?_, ?_⟩
  · intro s i A B f hsort hA hB hAf hfB
    obtain ⟨first, rest, hdata⟩ : ∃ a t, s.data = a :: t := by
      cases hd : s.data with
      | nil =>
        rw [hd] at hA
        simp at hA
      | cons a t => exact ⟨a, t, rfl⟩
    rw [hdata] at hsort hA hB
    have hmemA : A ∈ first :: rest := List.getElem?_mem hA
    have hmemB : B ∈ first :: rest := List.getElem?_mem hB
    have hfirstA : first.1 ≤ A.1 := by
      simpa using freqSorted_getD_zero_le hsort hmemA ((0 : ℚ), (0 : ℚ))
    have hBlast : B.1 ≤ ((first :: rest).getD rest.length (0, 0)).1 := by
      have := freqSorted_le_getD_last hsort hmemB ((0 : ℚ), (0 : ℚ))
      simpa using this
    have h1 : ¬first.1 = f := ne_of_lt (lt_of_le_of_lt hfirstA hAf)
    have h2 : ¬((first :: rest).getD rest.length (0, 0)).1 = f :=
      ne_of_gt (lt_of_lt_of_le hfB hBlast)
    have hnb : ¬(f < first.1 ∨ ((first :: rest).getD rest.length (0, 0)).1 < f) := by
      push_neg
      exact ⟨le_of_lt (lt_of_le_of_lt hfirstA hAf),
        le_of_lt (lt_of_lt_of_le hfB hBlast)⟩
    rw [freqValClosest_cons s f first rest hdata, if_neg h1, if_neg h2, if_neg hnb]
    exact closestScan_window s.frequency_resolution (first :: rest) i A B f
      hsort hA hB hAf hfB
  · norm_num [freqValClosest, scenarioSpectrum, mkSpectrum, scenarioBins, closestScan]
  · norm_num [freqValClosest, scenarioSpectrum, mkSpectrum, scenarioBins, closestScan]

/-- Witness for C5: the general nearest-neighbor rule applied to the scenario
spectrum with the adjacent pair `((300, 0), (450, 200))` at indices 6 and 7
and query 320. -/
theorem freq_val_closest_correct_witness :
    freqValClosest scenarioSpectrum 320 =
      some (if ((320 : ℚ) - (((300 : ℚ), (0 : ℚ)) : Bin).1) /
          scenarioSpectrum.frequency_resolution < 1 / 2
        then (((300 : ℚ), (0 : ℚ)) : Bin) else (((450 : ℚ), (200 : ℚ)) : Bin)) :=
  freq_val_closest_correct.1 scenarioSpectrum 6 (300, 0) (450, 200) 320
    scenario_sorted
    (by norm_num [scenarioSpectrum, mkSpectrum, scenarioBins])
    (by norm_num [scenarioSpectrum, mkSpectrum, scenarioBins])
    (by norm_num) (by norm_num)

/-- Claim C10: `freq_val_closest` is not a true nearest-neighbor lookup: it
compares `(f - A.frequency)` against half of the original
`frequency_resolution` rather than the actual gap between the enclosing bins.
On the scenario spectrum (adjacent bins at 300 Hz and 450 Hz, gap 150 Hz,
resolution 50 Hz), the query 340 returns the 450 Hz bin although 340 is
strictly closer to 300 Hz. -/
theorem closest_is_not_nearest_neighbor :
    scenarioSpectrum.frequency_resolution = 50 ∧
    scenarioSpectrum.data[6]? = some ((300 : ℚ), (0 : ℚ)) ∧
    scenarioSpectrum.data[7]? = some ((450 : ℚ), (200 : ℚ)) ∧
    freqValClosest scenarioSpectrum 340 = some (450, 200) ∧
    |(340 : ℚ) - 300| < |(450 : ℚ) - 340| := by
  refine ⟨rfl, ?_, ?_, ?_, ?_⟩ <;>
    norm_num [freqValClosest, scenarioSpectrum, mkSpectrum, scenarioBins, closestScan,
      abs_of_pos]

/-! ## Bin mapper (`src/lib.rs`) and real-FFT adapter (`src/fft/microfft_real.rs`) -/

/-- A complex FFT output value `(re, im)` (`Complex32`), with exactly
representable parts modelled as rationals. -/
abbrev Cpx := ℚ × ℚ

/-- Model of `Complex32::norm()`: the Euclidean norm `sqrt(re² + im²)`, valued in `ℝ`. -/
noncomputable def cnorm (c : Cpx) : ℝ :=
  Real.sqrt ((c.1 : ℝ) ^ 2 + (c.2 : ℝ) ^ 2)

/-- Model of `fft_calc_frequency_resolution` (`src/lib.rs:277-297`):
`sampling_rate / samples_len`. -/
def fftCalcFrequencyResolution (samplingRate samplesLen : ℕ) : ℚ :=
  (samplingRate : ℚ) / (samplesLen : ℚ)

/-- The bin-construction pipeline of `fft_result_to_spectrum`
(`src/lib.rs:175-246`): keep the first `N/2 + 1` complex values, attach the
frequency `index * resolution` to each, filter by the optional inclusive
lower and upper frequency bounds, take the Euclidean norm, and apply the
optional per-element scaling function (`unwrap_or(identity)`). The final
`FrequencySpectrum::new` call and optional total scaling of the source
function are the constructor and rescale operations modelled separately
above. -/
noncomputable def fftResultToBins (fftResult : List Cpx) (samplingRate : ℕ)
    (maybeMin maybeMax : Option ℚ) (perElementScalingFn : Option (ℝ → ℝ)) :
    List (ℚ × ℝ) :=
  let samplesLen := fftResult.length
  let frequencyResolution := fftCalcFrequencyResolution samplingRate samplesLen
  let kept := (fftResult.take (samplesLen / 2 + 1)).enum.map
    (fun ic : ℕ × Cpx => ((ic.1 : ℚ) * frequencyResolution, ic.2))
  let lowFiltered := kept.filter (fun p => match maybeMin with
    | some minF => decide (minF ≤ p.1)
    | none => true)
  let highFiltered := lowFiltered.filter (fun p => match maybeMax with
    | some maxF => decide (p.1 ≤ maxF)
    | none => true)
  let magnitudes := highFiltered.map (fun p => (p.1, cnorm p.2))
  magnitudes.map (fun p => (p.1, (perElementScalingFn.getD id) p.2))

/-- The real-FFT lengths accepted by the `microfft` adapter's dispatch chain
(`src/fft/microfft_real.rs:47-93`); any other length panics. -/
def microfftSupportedLengths : List ℕ :=
  [2, 4, 8, 16, 32, 64, 128, 256, 512, 1024, 2048, 4096, 8192, 16384]

/-- Model of `FftImpl::fft_apply` (`src/fft/microfft_real.rs:44-103`). The
`microfft::real::rfft_N` backend family is external to this repository and is
abstracted as the `rfft` parameter (its documented contract — `N/2` complex
outputs with the Nyquist coefficient packed into the imaginary slot of the
DC bin — enters the theorems as a hypothesis). After dispatch the adapter
zeroes the DC bin's imaginary slot and appends the Nyquist coefficient as its
own element; an unsupported length panics (`none`), and an (impossible under
the contract) empty backend result would panic at `res[0]` (`none`). -/
def fftApply (rfft : List ℚ → List Cpx) (samples : List ℚ) : Option (List Cpx) :=
  if samples.length ∈ microfftSupportedLengths then
    match rfft samples with
    | [] => none
    | r0 :: rest => some ((r0.1, 0) :: (rest ++ [(r0.2, 0)]))
  else none

section BinMapperLemmas

/-- Positional characterization of the pipeline without a range limit: bin `i`
exists iff `i` indexes the kept prefix of length `N/2 + 1`, its frequency is
`i * resolution` and its magnitude is the (optionally scaled) norm of the
`i`-th complex value. -/
lemma fftResultToBins_getElem_nolimit (l : List Cpx) (sr : ℕ)
    (scl : Option (ℝ → ℝ)) (i : ℕ) :
    (fftResultToBins l sr none none scl)[i]? =
      (l.take (l.length / 2 + 1))[i]?.map
        (fun c => ((i : ℚ) * fftCalcFrequencyResolution sr l.length,
          (scl.getD id) (cnorm c))) := by
  simp only [fftResultToBins]
  simp [List.getElem?_map, List.enum, List.getElem?_enumFrom, Option.map_map]
  cases h : (l.take (l.length / 2 + 1))[i]? with
  | none => simp [h]
  | some c => simp [h, Function.comp]

/-- The inclusive range filter commutes with magnitude computation and
scaling: the limited pipeline is exactly the unlimited pipeline with the
out-of-range bins dropped entirely. -/
lemma fftResultToBins_filter_eq (l : List Cpx) (sr : ℕ) (mmin mmax : Option ℚ)
    (scl : Option (ℝ → ℝ)) :
    fftResultToBins l sr mmin mmax scl =
      (fftResultToBins l sr none none scl).filter
        (fun p => (match mmin with | some mn => decide (mn ≤ p.1) | none => true) &&
          (match mmax with | some mx => decide (p.1 ≤ mx) | none => true)) := by
  simp only [fftResultToBins, List.filter_filter, List.filter_true, List.filter_map,
    List.map_map]
  congr 1
  apply List.filter_congr
  intro a _
  cases mmin <;> cases mmax <;> simp [Function.comp, Bool.and_comm]

end BinMapperLemmas

/-- Claim C6: the bin mapper keeps exactly the first `N/2 + 1` complex values
(the mirrored negative-frequency half is discarded unconditionally); the bin
at kept index `i` has frequency `i * (sample_rate / N)` (with
`fft_calc_frequency_resolution = sample_rate / N`) and magnitude the
Euclidean norm `sqrt(re² + im²)` passed through the optional per-element
scaling function (default identity); the inclusive `[min, max]` frequency
filter drops out-of-range bins entirely (it reads only the frequency, so it
commutes with — and in the code precedes — the norm and scaling maps); and
for `N = 8` with no range limit the result is exactly 5 bins spanning DC
(0 Hz) through Nyquist (`sample_rate / 2`). -/
theorem bin_mapper_correct :
    (∀ samplingRate samplesLen : ℕ,
      fftCalcFrequencyResolution samplingRate samplesLen =
        (samplingRate : ℚ) / (samplesLen : ℚ)) ∧
    (∀ (l : List Cpx) (sr : ℕ) (scl : Option (ℝ → ℝ)) (i : ℕ),
      (fftResultToBins l sr none none scl)[i]? =
        (l.take (l.length / 2 + 1))[i]?.map
          (fun c => ((i : ℚ) * fftCalcFrequencyResolution sr l.length,
            (scl.getD id) (cnorm c)))) ∧
    (∀ (l : List Cpx) (sr : ℕ) (mmin mmax : Option ℚ) (scl : Option (ℝ → ℝ)),
      fftResultToBins l sr mmin mmax scl =
        (fftResultToBins l sr none none scl).filter
          (fun p => (match mmin with | some mn => decide (mn ≤ p.1) | none => true) &&
            (match mmax with | some mx => decide (p.1 ≤ mx) | none => true))) ∧
    (∀ (l : List Cpx) (sr : ℕ), l.length = 8 →
      (fftResultToBins l sr none none none).length = 5 ∧
      (fftResultToBins l sr none none none).map Prod.fst =
        [0, (sr : ℚ) / 8, (sr : ℚ) / 4, 3 * ((sr : ℚ) / 8), (sr : ℚ) / 2]) := by
  refine ⟨fun _ _ => rfl, fftResultToBins_getElem_nolimit, fftResultToBins_filter_eq, ?_⟩
  intro l sr h8
  constructor
  · simp [fftResultToBins, List.filter_true, h8]
  · apply List.ext_getElem?
    intro i
    rw [List.getElem?_map, fftResultToBins_getElem_nolimit, Option.map_map]
    rcases i with _ | _ | _ | _ | _ | i
    · rw [List.getElem?_eq_getElem (by simp [h8])]
      simp [fftCalcFrequencyResolution]
    · rw [List.getElem?_eq_getElem (by simp [h8])]
      simp [fftCalcFrequencyResolution, h8]
    · rw [List.getElem?_eq_getElem (by simp [h8])]
      simp [fftCalcFrequencyResolution, h8] <;> ring
    · rw [List.getElem?_eq_getElem (by simp [h8])]
      simp [fftCalcFrequencyResolution, h8] <;> ring
    · rw [List.getElem?_eq_getElem (by simp [h8])]
      simp [fftCalcFrequencyResolution, h8] <;> ring
    · rw [List.getElem?_eq_none (by simp [h8])]
      simp

/-- Witness for C6: a concrete real-valued FFT result of length 8 at sample
rate 8 yields exactly 5 bins. -/
theorem bin_mapper_correct_witness :
    (fftResultToBins (List.replicate 8 ((1 : ℚ), (0 : ℚ))) 8 none none none).length = 5 ∧
    (fftResultToBins (List.replicate 8 ((1 : ℚ), (0 : ℚ))) 8 none none none).map Prod.fst =
      [0, ((8 : ℕ) : ℚ) / 8, ((8 : ℕ) : ℚ) / 4, 3 * (((8 : ℕ) : ℚ) / 8),
        ((8 : ℕ) : ℚ) / 2] :=
  bin_mapper_correct.2.2.2 (List.replicate 8 (1, 0)) 8 (by simp)

/-- Claim C8: for every supported input length, given the backend's contract
(`N/2` complex outputs, Nyquist packed in the imaginary slot of the DC
element), `fft_apply` returns a sequence whose DC element has imaginary part
zero, whose element at index `N/2` is the unpacked Nyquist coefficient with
zero imaginary part, and whose other elements are the backend's, of total
length `N/2 + 1`. The unpacking precedes magnitude computation: magnitudes
are only taken downstream by the bin mapper, and on the unpacked DC and
Nyquist elements the Euclidean norm evaluates to the absolute value of the
unpacked real coefficient. -/
theorem fft_apply_unpacks_nyquist (rfft : List ℚ → List Cpx) (samples : List ℚ)
    (r0 : Cpx) (rest : List Cpx)
    (hsup : samples.length ∈ microfftSupportedLengths)
    (hback : rfft samples = r0 :: rest)
    (hlen : (r0 :: rest).length = samples.length / 2) :
    fftApply rfft samples = some ((r0.1, 0) :: (rest ++ [(r0.2, 0)])) ∧
    ((r0.1, 0) :: (rest ++ [(r0.2, 0)])).length = samples.length / 2 + 1 ∧
    ((r0.1, 0) :: (rest ++ [(r0.2, 0)]))[0]? = some ((r0.1, 0) : Cpx) ∧
    ((r0.1, 0) :: (rest ++ [(r0.2, 0)]))[samples.length / 2]? =
      some ((r0.2, 0) : Cpx) ∧
    (∀ i, 1 ≤ i → i < samples.length / 2 →
      ((r0.1, 0) :: (rest ++ [(r0.2, 0)]))[i]? = (r0 :: rest)[i]?) ∧
    cnorm (r0.1, 0) = |(r0.1 : ℝ)| ∧ cnorm (r0.2, 0) = |(r0.2 : ℝ)| := by
  have hrest : rest.length + 1 = samples.length / 2 := by simpa using hlen
  refine ⟨?_, ?_, by simp, ?_, ?_, ?_, ?_⟩
  · unfold fftApply
    rw [if_pos hsup, hback]
  · simp [← hrest]
  · rw [← hrest]
    simp [List.getElem?_concat_length]
  · intro i h1 hi
    obtain ⟨j, rfl⟩ : ∃ j, i = j + 1 := ⟨i - 1, by omega⟩
    have hj : j < rest.length := by omega
    simp [List.getElem?_append_left hj]
  · simp [cnorm, Real.sqrt_sq_eq_abs]
  · simp [cnorm, Real.sqrt_sq_eq_abs]

/-- Witness for C8: a length-2 sample block whose backend output is the
single packed value `(3, 7)` unpacks to DC `(3, 0)` and Nyquist `(7, 0)`. -/
theorem fft_apply_unpacks_nyquist_witness :
    fftApply (fun _ => [((3 : ℚ), (7 : ℚ))]) [1, 2] =
      some ((((3 : ℚ), (7 : ℚ)).1, 0) :: ([] ++ [(((3 : ℚ), (7 : ℚ)).2, 0)])) :=
  (fft_apply_unpacks_nyquist (fun _ => [(3, 7)]) [1, 2] (3, 7) []
    (by simp [microfftSupportedLengths]) rfl rfl).1

end SpectrumAnalyzer
